import Mathlib

/-!
Shallow embedding of the eVTOL discrete-event simulation
(`eVTOLSimulation.h` / `eVTOLSimulation.cpp`).

Modelling decisions:
* C++ `double` values are embedded as exact rationals `ℚ`; every constant in
  the program (0.2, 1.5, 3.0, …) is an exact decimal, and no comparison made
  by the program in the runs analysed here is within rounding distance of a
  tie, so the rational semantics agrees with the floating-point one.
* `std::priority_queue<Event, vector<Event>, greater<Event>>` is a min-queue
  ordered by `time`; the order among equal timestamps is unspecified by the
  source.  The model gives each pushed event a sequence number and breaks
  timestamp ties by insertion order (the deterministic tie-break the spec
  asks for in section 4.1).  Configurations used for concrete runs below are
  chosen so that tied events are symmetric, making conclusions independent
  of the tie-break.
* The C++ `std::function` closures stored in events are embedded as a tagged
  payload (`EventAction`): the only two closures ever created are
  `processFlightEnd v startTime flightDuration` and `finishCharging v i`,
  and the payload records exactly the data those closures capture.
* Vehicles are identified by their index into the fleet list (`shared_ptr`
  identity in the source).  The random choice of vehicle types made by
  `createVehicles` and the stream of `dist01(rng)` samples drawn by
  `processFlightEnd` are inputs of the model (`Config.fleet`,
  `Config.samples`), so a "reachable run" is a run for some choice of them.
* `eventQueue.top()` on an empty queue is undefined behaviour in C++; the
  model makes `finishCharging` return `none` in that case and the run is
  marked `crashed`.
-/

namespace EVTOL

attribute [local semireducible] Rat.mul Rat.inv Rat.add Rat.sub

/-- `VehicleType` record from `eVTOLSimulation.h` (company, cruiseSpeed,
batteryCapacity, timeToCharge, energyPerMile, passengerCount,
faultProbPerHour); the `Company` enum is embedded as its numeric index. -/
structure VehicleType where
  company : ℕ
  cruiseSpeed : ℚ
  batteryCapacity : ℚ
  timeToCharge : ℚ
  energyPerMile : ℚ
  passengerCount : ℕ
  faultProbPerHour : ℚ
deriving DecidableEq

/-- Default used for out-of-range fleet lookups (never reached on the runs
analysed; kept total so every definition is executable). -/
def defaultVehicleType : VehicleType := ⟨0, 0, 0, 0, 0, 0, 0⟩

/-- `Vehicle::getFlightDuration`:
`type.batteryCapacity / (type.cruiseSpeed * type.energyPerMile)`. -/
def getFlightDuration (t : VehicleType) : ℚ :=
  t.batteryCapacity / (t.cruiseSpeed * t.energyPerMile)

/-- `Vehicle::getDistancePerFlight`: `type.cruiseSpeed * getFlightDuration()`. -/
def getDistancePerFlight (t : VehicleType) : ℚ :=
  t.cruiseSpeed * getFlightDuration t

/-- Per-company `Stats` record from `eVTOLSimulation.h`. -/
structure Stats where
  totalFlightTime : ℚ := 0
  totalDistance : ℚ := 0
  totalChargeTime : ℚ := 0
  passengerMiles : ℚ := 0
  totalFlights : ℕ := 0
  totalCharges : ℕ := 0
  totalFaults : ℕ := 0
deriving DecidableEq

/-- The two closures the source ever stores in an `Event`:
`[this,v,startTime,flightDuration](){ processFlightEnd(...) }` and
`[this,v,i](){ finishCharging(v,i) }`, with their captured data. -/
inductive EventAction where
  | flightEnd (v : ℕ) (startTime duration : ℚ)
  | chargeEnd (v : ℕ) (chargerIndex : ℕ)
deriving DecidableEq

/-- `Event`: timestamp plus payload; `seq` is the insertion sequence number
used as the deterministic timestamp tie-break. -/
structure Event where
  time : ℚ
  seq : ℕ
  action : EventAction
deriving DecidableEq

/-- Ordering used by the model's priority queue: by time, ties by insertion
order. -/
def eventBefore (a b : Event) : Bool :=
  decide (a.time < b.time ∨ (a.time = b.time ∧ a.seq ≤ b.seq))

/-- `eventQueue.top()`: minimal element by `eventBefore` (`none` on empty). -/
def queueTop : List Event → Option Event
  | [] => none
  | e :: es =>
    match queueTop es with
    | none => some e
    | some m => if eventBefore e m then some e else some m

/-- Remove one occurrence of an event from the queue (`eventQueue.pop()`). -/
def removeEvent : List Event → Event → List Event
  | [], _ => []
  | x :: xs, e => if x = e then xs else x :: removeEvent xs e

/-- Simulation configuration: the inputs of the core per spec section 6.
`fleet` is the list of vehicle types chosen by `createVehicles` (vehicle
`v` has type `fleet[v]`); `samples` is the stream of `dist01(rng)` draws. -/
structure Config where
  horizon : ℚ
  numChargers : ℕ
  fleet : List VehicleType
  samples : ℕ → ℚ

/-- The mutable state of `class Simulation`. -/
structure SimState where
  eventQueue : List Event
  nextSeq : ℕ
  chargingQueue : List ℕ
  activeChargers : List (Option ℕ)
  stats : ℕ → Stats
  rngIndex : ℕ

/-- Type of vehicle `v` (`v->type`). -/
def vehicleTypeOf (cfg : Config) (v : ℕ) : VehicleType :=
  cfg.fleet.getD v defaultVehicleType

/-- `eventQueue.push({time, action})`. -/
def pushEvent (s : SimState) (time : ℚ) (a : EventAction) : SimState :=
  { s with eventQueue := s.eventQueue ++ [⟨time, s.nextSeq, a⟩],
           nextSeq := s.nextSeq + 1 }

/-- `stats[c]` update; `std::map::operator[]` default-constructs `Stats`
(all zero), modelled by the total function with zero default. -/
def updateStats (s : SimState) (c : ℕ) (f : Stats → Stats) : SimState :=
  { s with stats := fun c' => if c' = c then f (s.stats c') else s.stats c' }

/-- `Simulation::scheduleFlight(v, startTime)`. -/
def scheduleFlight (cfg : Config) (s : SimState) (v : ℕ) (startTime : ℚ) :
    SimState :=
  let flightDuration := getFlightDuration (vehicleTypeOf cfg v)
  if startTime + flightDuration > cfg.horizon then s
  else pushEvent s (startTime + flightDuration) (.flightEnd v startTime flightDuration)

/-- One iteration `i` of the loop in `Simulation::tryCharging`. -/
def tryChargingStep (cfg : Config) (currentTime : ℚ) (s : SimState) (i : ℕ) :
    SimState :=
  if s.activeChargers.getD i none = none then
    match s.chargingQueue with
    | [] => s
    | v :: rest =>
      let chargeEnd := currentTime + (vehicleTypeOf cfg v).timeToCharge
      if chargeEnd > cfg.horizon then { s with chargingQueue := rest }
      else
        pushEvent
          { s with chargingQueue := rest,
                   activeChargers := s.activeChargers.set i (some v) }
          chargeEnd (.chargeEnd v i)
  else s

/-- The loop of `tryCharging` over a list of charger indices. -/
def tryChargingList (cfg : Config) (currentTime : ℚ) (s : SimState) :
    List ℕ → SimState
  | [] => s
  | i :: is => tryChargingList cfg currentTime (tryChargingStep cfg currentTime s i) is

/-- `Simulation::tryCharging(currentTime)`: `for (i = 0; i < NUM_CHARGERS; ++i)`. -/
def tryCharging (cfg : Config) (s : SimState) (currentTime : ℚ) : SimState :=
  tryChargingList cfg currentTime s (List.range cfg.numChargers)

/-- `Simulation::processFlightEnd(v, startTime, duration)`. -/
def processFlightEnd (cfg : Config) (s : SimState) (v : ℕ)
    (startTime duration : ℚ) : SimState :=
  let endTime := startTime + duration
  if endTime > cfg.horizon then s
  else
    let t := vehicleTypeOf cfg v
    let distance := getDistancePerFlight t
    let s1 := updateStats s t.company fun st =>
      { st with totalFlightTime := st.totalFlightTime + duration,
                totalDistance := st.totalDistance + distance,
                totalFlights := st.totalFlights + 1,
                passengerMiles := st.passengerMiles + (t.passengerCount : ℚ) * distance }
    let s2 :=
      if cfg.samples s1.rngIndex < t.faultProbPerHour * duration then
        updateStats s1 t.company fun st => { st with totalFaults := st.totalFaults + 1 }
      else s1
    let s3 := { s2 with rngIndex := s2.rngIndex + 1,
                        chargingQueue := s2.chargingQueue ++ [v] }
    tryCharging cfg s3 endTime

/-- `Simulation::finishCharging(v, chargerIndex)`.  The source reads
`eventQueue.top().time` after `run()` has already popped the firing event,
so `now` is the timestamp of the *next* pending event; on an empty queue
this is undefined behaviour, modelled as `none`. -/
def finishCharging (cfg : Config) (s : SimState) (v : ℕ) (chargerIndex : ℕ) :
    Option SimState :=
  match queueTop s.eventQueue with
  | none => none
  | some top =>
    let now := top.time
    let t := vehicleTypeOf cfg v
    let s1 := updateStats s t.company fun st =>
      { st with totalChargeTime := st.totalChargeTime + t.timeToCharge,
                totalCharges := st.totalCharges + 1 }
    let s2 := { s1 with activeChargers := s1.activeChargers.set chargerIndex none }
    let s3 := scheduleFlight cfg s2 v now
    some (tryCharging cfg s3 now)

/-- Outcome of advancing the `run()` loop. -/
inductive SimOutcome where
  | running (s : SimState)
  | finished (s : SimState)
  | crashed (s : SimState)

/-- The state carried by an outcome. -/
def SimOutcome.state : SimOutcome → SimState
  | .running s => s
  | .finished s => s
  | .crashed s => s

/-- Whether the outcome is the undefined-behaviour case. -/
def SimOutcome.isCrashed : SimOutcome → Bool
  | .crashed _ => true
  | _ => false

/-- One iteration of the loop in `Simulation::run`: if the queue is nonempty
and `top().time <= SIM_DURATION`, pop the top event and execute its action. -/
def simStep (cfg : Config) (s : SimState) : SimOutcome :=
  match queueTop s.eventQueue with
  | none => .finished s
  | some e =>
    if e.time ≤ cfg.horizon then
      let s0 := { s with eventQueue := removeEvent s.eventQueue e }
      match e.action with
      | .flightEnd v startTime duration =>
        .running (processFlightEnd cfg s0 v startTime duration)
      | .chargeEnd v i =>
        match finishCharging cfg s0 v i with
        | some s1 => .running s1
        | none => .crashed s0
    else .finished s

/-- `createVehicles`: schedule the first flight of vehicles `0, …, n-1`
(in index order, matching the source loop) from the empty state. -/
def seedFlights (cfg : Config) : ℕ → SimState
  | 0 => ⟨[], 0, [], List.replicate cfg.numChargers none, fun _ => {}, 0⟩
  | n + 1 => scheduleFlight cfg (seedFlights cfg n) n 0

/-- State after the `Simulation` constructor: every vehicle's first flight
seeded with `scheduleFlight(v, 0.0)`, chargers all idle. -/
def initState (cfg : Config) : SimState :=
  seedFlights cfg cfg.fleet.length

/-- The run after `n` loop iterations (stays put once finished or crashed). -/
def simSteps (cfg : Config) : ℕ → SimOutcome
  | 0 => .running (initState cfg)
  | n + 1 =>
    match simSteps cfg n with
    | .running s => simStep cfg s
    | o => o

/-- The simulation state reached after `n` loop iterations. -/
def stateAfter (cfg : Config) (n : ℕ) : SimState :=
  (simSteps cfg n).state

/-- `Avg Flight Time` expression of `printStats`:
`stat.totalFlights ? stat.totalFlightTime / stat.totalFlights : 0`. -/
def avgFlightTime (st : Stats) : ℚ :=
  if st.totalFlights ≠ 0 then st.totalFlightTime / (st.totalFlights : ℚ) else 0

/-- `Avg Distance per Flight` expression of `printStats`. -/
def avgDistancePerFlight (st : Stats) : ℚ :=
  if st.totalFlights ≠ 0 then st.totalDistance / (st.totalFlights : ℚ) else 0

/-- `Avg Charge Time` expression of `printStats`. -/
def avgChargeTime (st : Stats) : ℚ :=
  if st.totalCharges ≠ 0 then st.totalChargeTime / (st.totalCharges : ℚ) else 0

/-- `SIM_DURATION` from the header. -/
def SIM_DURATION : ℚ := 3

/-- `NUM_VEHICLES` from the header. -/
def NUM_VEHICLES : ℕ := 20

/-- `NUM_CHARGERS` from the header. -/
def NUM_CHARGERS : ℕ := 3

/-- The hardcoded catalog assigned by `Simulation::loadVehicleTypes`
(companies ALPHA=0 … ECHO=4; decimals as exact rationals). -/
def vehicleTypes : List VehicleType :=
  [⟨0, 120, 320, 3/5, 8/5, 4, 1/4⟩,
   ⟨1, 100, 100, 1/5, 3/2, 5, 1/10⟩,
   ⟨2, 160, 220, 4/5, 11/5, 3, 1/20⟩,
   ⟨3, 90, 120, 31/50, 4/5, 2, 11/50⟩,
   ⟨4, 30, 150, 3/10, 29/5, 2, 61/100⟩]

/-- The ALPHA catalog entry. -/
def alphaType : VehicleType := ⟨0, 120, 320, 3/5, 8/5, 4, 1/4⟩

/-- The BRAVO catalog entry. -/
def bravoType : VehicleType := ⟨1, 100, 100, 1/5, 3/2, 5, 1/10⟩

/-- The CHARLIE catalog entry. -/
def charlieType : VehicleType := ⟨2, 160, 220, 4/5, 11/5, 3, 1/20⟩

/-- A fleet drawable by `createVehicles` with the reference constants
(horizon 3, 3 chargers, 20 vehicles): one BRAVO then nineteen ALPHAs. -/
def cfgA : Config :=
  ⟨SIM_DURATION, NUM_CHARGERS, bravoType :: List.replicate 19 alphaType, fun _ => 1/2⟩

/-- Does this event carry a `processFlightEnd` closure for vehicle `v`
with captured start time `t0`? -/
def isFlightEndWithStart (v : ℕ) (t0 : ℚ) (e : Event) : Bool :=
  match e.action with
  | .flightEnd w s _ => w == v && s == t0
  | _ => false

/-- Does this event carry a `finishCharging` closure for vehicle `v`? -/
def isChargeEndOf (v : ℕ) (e : Event) : Bool :=
  match e.action with
  | .chargeEnd w _ => w == v
  | _ => false

/-- Claim C1: refuted on the code.  In the run of `cfgA` (a fleet drawable
by `createVehicles` under the reference constants), the charge-completion
of vehicle 0 is the next event after step 1 and fires at t = 13/15; but
because `finishCharging` reads `eventQueue.top().time` after `run()` has
popped the firing event, it schedules vehicle 0's next flight with start
time 5/3 (the timestamp of the next pending event), not 13/15 = t: after
step 2 the queue holds a flight-end for vehicle 0 whose captured start
time is 5/3 and none with start time 13/15. -/
theorem claim_C1_start_time_bug :
    queueTop (stateAfter cfgA 1).eventQueue = some ⟨13/15, 20, .chargeEnd 0 0⟩
    ∧ (stateAfter cfgA 2).eventQueue.any (isFlightEndWithStart 0 (5/3)) = true
    ∧ (stateAfter cfgA 2).eventQueue.any (isFlightEndWithStart 0 (13/15)) = false
    ∧ (5 / 3 : ℚ) ≠ 13 / 15 := by
  decide

/-- Claim C2: refuted on the code.  In the run of `cfgA`, the 28th loop
iteration pops the final charge-completion event and `finishCharging`
then reads `eventQueue.top()` on an empty queue (undefined behaviour in
C++, the `crashed` outcome of the model). -/
theorem claim_C2_empty_top_read :
    (simSteps cfgA 27).isCrashed = false ∧ (simSteps cfgA 28).isCrashed = true := by
  decide

/-- Claim C4: derived flight values.  For any type with positive speed,
capacity and energy rate, `getFlightDuration` is capacity/(speed·energy)
and `getDistancePerFlight` is capacity/energy; for the spec's example
(S=100, C=100, E=1.5, the BRAVO entry) the duration is within 0.01 of
0.667 and the distance within 0.1 of 66.7. -/
theorem claim_C4_derived_values :
    (∀ t : VehicleType, 0 < t.cruiseSpeed → 0 < t.batteryCapacity →
      0 < t.energyPerMile →
        getFlightDuration t = t.batteryCapacity / (t.cruiseSpeed * t.energyPerMile)
        ∧ getDistancePerFlight t = t.batteryCapacity / t.energyPerMile)
    ∧ |getFlightDuration bravoType - 667/1000| < 1/100
    ∧ |getDistancePerFlight bravoType - 667/10| < 1/10 := by
  refine ⟨fun t hS _hC hE => ⟨rfl, ?_⟩, by decide, by decide⟩
  rw [getDistancePerFlight, getFlightDuration]
  field_simp
  ring

/-- Witness for C4 at the BRAVO catalog entry. -/
theorem claim_C4_witness :
    getFlightDuration bravoType = 100 / (100 * (3/2))
    ∧ getDistancePerFlight bravoType = 100 / (3/2) := by
  have h := claim_C4_derived_values.1 bravoType (by decide) (by decide) (by decide)
  exact h

/-- Claim C9: the reported averages in `printStats` equal total/count when
the count is nonzero and the defined default 0 when it is zero.  The
guard (`count ? total/count : 0`) means the division is only formed with a
nonzero denominator; in this exact-rational embedding there is no NaN and
the zero-count result is the defined constant 0. -/
theorem claim_C9_average_definedness (st : Stats) :
    (st.totalFlights = 0 → avgFlightTime st = 0 ∧ avgDistancePerFlight st = 0)
    ∧ (st.totalFlights ≠ 0 →
        avgFlightTime st = st.totalFlightTime / (st.totalFlights : ℚ)
        ∧ avgDistancePerFlight st = st.totalDistance / (st.totalFlights : ℚ))
    ∧ (st.totalCharges = 0 → avgChargeTime st = 0)
    ∧ (st.totalCharges ≠ 0 →
        avgChargeTime st = st.totalChargeTime / (st.totalCharges : ℚ)) := by
  refine ⟨fun h => ⟨?_, ?_⟩, fun h => ⟨?_, ?_⟩, fun h => ?_, fun h => ?_⟩ <;>
    simp [avgFlightTime, avgDistancePerFlight, avgChargeTime, h]

/-- Witness for C9 at the all-zero `Stats` (an operator with no recorded
flights or charges) and at a one-flight `Stats`. -/
theorem claim_C9_witness :
    (avgFlightTime {} = 0 ∧ avgDistancePerFlight {} = 0)
    ∧ avgChargeTime {} = 0
    ∧ avgFlightTime { totalFlightTime := 4, totalFlights := 2 } = 4 / 2 := by
  refine ⟨(claim_C9_average_definedness {}).1 rfl,
          (claim_C9_average_definedness {}).2.2.1 rfl,
          ((claim_C9_average_definedness _).2.1 (by decide)).1⟩

/-- A configuration witnessing the FIFO-service exception: horizon 2, one
charger, fleet CHARLIE, CHARLIE, BRAVO, ALPHA (vehicles 0,1,2,3).  The two
CHARLIE first-flight completions share a timestamp; they are symmetric, so
the insertion-order tie-break only fixes which of the two identical
vehicles plays each role. -/
def cfgB : Config := ⟨2, 1, [charlieType, charlieType, bravoType, alphaType], fun _ => 1/2⟩

/-- Claim C7: refuted on the code.  In the run of `cfgB`, vehicle 1 joins
the waiting line strictly before vehicle 2 (line = [1] after step 2,
[1, 2] after step 3), yet vehicle 2 is later assigned the charger (slot
state [some 2] after step 5) while vehicle 1 is never assigned one at any
point of the run (which ends by step 6): vehicle 1 was dequeued when its
charge would overrun the horizon and dropped without service. -/
theorem claim_C7_counterexample :
    (stateAfter cfgB 2).chargingQueue = [1]
    ∧ (stateAfter cfgB 3).chargingQueue = [1, 2]
    ∧ (stateAfter cfgB 5).activeChargers = [some 2]
    ∧ ((List.range 9).all fun k =>
        ((stateAfter cfgB k).activeChargers.all fun o => o != some 1)
        && ((stateAfter cfgB k).eventQueue.all fun e => !(isChargeEndOf 1 e))) = true := by
  decide

/-- `tryChargingStep` removes vehicles only from the front of the waiting
line: the resulting line is a tail of the original. -/
theorem tryChargingStep_line_drop (cfg : Config) (time : ℚ) (s : SimState)
    (i : ℕ) :
    ∃ k, (tryChargingStep cfg time s i).chargingQueue = s.chargingQueue.drop k := by
  unfold tryChargingStep
  split
  · match h : s.chargingQueue with
    | [] => exact ⟨0, by simp [h]⟩
    | v :: rest =>
      simp only [h]
      split
      · exact ⟨1, by simp [h]⟩
      · exact ⟨1, by simp [pushEvent, h]⟩
  · exact ⟨0, rfl⟩

/-- The whole matching pass removes vehicles only from the front of the
waiting line. -/
theorem tryChargingList_line_drop (cfg : Config) (time : ℚ) :
    ∀ (l : List ℕ) (s : SimState),
      ∃ k, (tryChargingList cfg time s l).chargingQueue = s.chargingQueue.drop k
  | [], s => ⟨0, rfl⟩
  | i :: is, s => by
    obtain ⟨k1, h1⟩ := tryChargingStep_line_drop cfg time s i
    obtain ⟨k2, h2⟩ := tryChargingList_line_drop cfg time is (tryChargingStep cfg time s i)
    exact ⟨k1 + k2, by rw [tryChargingList, h2, h1, List.drop_drop, Nat.add_comm]⟩

/-- Claim C7 as amended: the waiting line is served in strict FIFO
*dequeue* order — `processFlightEnd` appends the arriving vehicle at the
back, every pass removes vehicles only from the front, and a dequeued
vehicle is assigned the free slot exactly when its charge fits the
horizon; a dequeued head whose charge would overrun is dropped without
assignment, so a vehicle that joined earlier may end up never assigned
while a later one is (the run of `cfgB` above).  No type- or
operator-based priority is applied anywhere. -/
theorem claim_C7_amended (cfg : Config) :
    (∀ time s l, ∃ k,
        (tryChargingList cfg time s l).chargingQueue = s.chargingQueue.drop k)
    ∧ (∀ s v startTime duration, ¬ startTime + duration > cfg.horizon → ∃ k,
        (processFlightEnd cfg s v startTime duration).chargingQueue
          = (s.chargingQueue ++ [v]).drop k)
    ∧ (∀ time s i v rest, s.chargingQueue = v :: rest →
        s.activeChargers.getD i none = none →
        ¬ time + (vehicleTypeOf cfg v).timeToCharge > cfg.horizon →
          (tryChargingStep cfg time s i).chargingQueue = rest
          ∧ (tryChargingStep cfg time s i).activeChargers
              = s.activeChargers.set i (some v)) := by
  refine ⟨fun time s l => tryChargingList_line_drop cfg time l s,
          fun s v startTime duration h => ?_, fun time s i v rest hq hfree hfit => ?_⟩
  · simp only [processFlightEnd, if_neg h, tryCharging]
    split
    · exact tryChargingList_line_drop cfg _ _ _
    · exact tryChargingList_line_drop cfg _ _ _
  · rw [tryChargingStep, if_pos hfree, hq]
    simp [if_neg hfit, pushEvent]

/-- Witness for the amended C7: a concrete head-of-line assignment. -/
theorem claim_C7_amended_witness :
    (tryChargingStep cfgB (1/2) ⟨[], 0, [2, 3], [none], fun _ => {}, 0⟩ 0).chargingQueue = [3]
    ∧ (tryChargingStep cfgB (1/2) ⟨[], 0, [2, 3], [none], fun _ => {}, 0⟩ 0).activeChargers
        = [none].set 0 (some 2) := by
  exact (claim_C7_amended cfgB).2.2 (1/2) ⟨[], 0, [2, 3], [none], fun _ => {}, 0⟩ 0 2 [3]
    rfl rfl (by decide)

/-- A catalog entry with non-positive cruise speed (the case claim C10
says must be rejected at load time). -/
def badType : VehicleType := ⟨0, -100, 100, 1/5, 3/2, 5, 0⟩

/-- A configuration whose fleet carries the degenerate entry. -/
def cfgC : Config := ⟨3, 1, [badType], fun _ => 1/2⟩

/-- Claim C10: refuted on the code.  Nothing in the pipeline validates
vehicle-type parameters: with a non-positive cruise speed the derived
flight duration is degenerate (negative), the constructor still schedules
the first flight, and the Event Engine runs it — after one step the
operator's stats record a completed flight with negative flight time.
Nothing ever fails fast. -/
theorem claim_C10_counterexample :
    badType.cruiseSpeed ≤ 0
    ∧ getFlightDuration badType < 0
    ∧ (initState cfgC).eventQueue ≠ []
    ∧ ((stateAfter cfgC 1).stats 0).totalFlights = 1
    ∧ ((stateAfter cfgC 1).stats 0).totalFlightTime = -(2/3) := by
  decide

/-- Claim C10 as amended: no load-time validation exists anywhere in the
code; the hardcoded catalog of `loadVehicleTypes` merely happens to
satisfy the positivity constraints (every entry has positive cruise speed
and positive energy-per-mile, hence a positive derived flight duration),
while a degenerate entry supplied to the core flows into the running
simulation unchecked (see the counterexample run). -/
theorem claim_C10_amended :
    (vehicleTypes.all fun t =>
      decide (0 < t.cruiseSpeed) && decide (0 < t.energyPerMile)
        && decide (0 < getFlightDuration t)) = true := by
  decide

/-- All events pending in the queue complete no later than `h`. -/
def queueBounded (h : ℚ) (s : SimState) : Prop :=
  ∀ e ∈ s.eventQueue, e.time ≤ h

theorem removeEvent_subset {q : List Event} {x e : Event}
    (he : e ∈ removeEvent q x) : e ∈ q := by
  induction q with
  | nil => simpa [removeEvent] using he
  | cons a q ih =>
    rw [removeEvent] at he
    split at he
    · exact List.mem_cons_of_mem a he
    · rcases List.mem_cons.1 he with h | h
      · exact h ▸ List.mem_cons_self a q
      · exact List.mem_cons_of_mem a (ih h)

theorem queueBounded_pushEvent {h : ℚ} {s : SimState} {t : ℚ} {a : EventAction}
    (hs : queueBounded h s) (ht : t ≤ h) : queueBounded h (pushEvent s t a) := by
  intro e he
  rcases List.mem_append.1 he with h1 | h1
  · exact hs e h1
  · rcases List.mem_singleton.1 h1 with rfl
    exact ht

theorem queueBounded_updateStats {h : ℚ} {s : SimState} {c : ℕ} {f : Stats → Stats}
    (hs : queueBounded h s) : queueBounded h (updateStats s c f) := hs

theorem queueBounded_scheduleFlight {cfg : Config} {s : SimState} {v : ℕ}
    {t0 : ℚ} (hs : queueBounded cfg.horizon s) :
    queueBounded cfg.horizon (scheduleFlight cfg s v t0) := by
  rw [scheduleFlight]
  split
  · exact hs
  · exact queueBounded_pushEvent hs (not_lt.1 (by assumption))

theorem queueBounded_tryChargingStep {cfg : Config} {time : ℚ} {s : SimState}
    {i : ℕ} (hs : queueBounded cfg.horizon s) :
    queueBounded cfg.horizon (tryChargingStep cfg time s i) := by
  rw [tryChargingStep]
  split
  · match hq : s.chargingQueue with
    | [] => exact hs
    | v :: rest =>
      simp only []
      split
      · exact fun e he => hs e he
      · exact queueBounded_pushEvent (fun e he => hs e he) (not_lt.1 (by assumption))
  · exact hs

theorem queueBounded_tryChargingList {cfg : Config} {time : ℚ} :
    ∀ (l : List ℕ) (s : SimState), queueBounded cfg.horizon s →
      queueBounded cfg.horizon (tryChargingList cfg time s l)
  | [], _, hs => hs
  | _ :: is, s, hs =>
    queueBounded_tryChargingList is _ (queueBounded_tryChargingStep hs)

theorem queueBounded_processFlightEnd {cfg : Config} {s : SimState} {v : ℕ}
    {t0 d : ℚ} (hs : queueBounded cfg.horizon s) :
    queueBounded cfg.horizon (processFlightEnd cfg s v t0 d) := by
  rw [processFlightEnd]
  split
  · exact hs
  · refine queueBounded_tryChargingList _ _ ?_
    split
    · exact fun e he => hs e he
    · exact fun e he => hs e he

theorem queueBounded_finishCharging {cfg : Config} {s s' : SimState} {v i : ℕ}
    (hs : queueBounded cfg.horizon s) (hres : finishCharging cfg s v i = some s') :
    queueBounded cfg.horizon s' := by
  rw [finishCharging] at hres
  match htop : queueTop s.eventQueue with
  | none => rw [htop] at hres; exact absurd hres (by simp)
  | some top =>
    rw [htop] at hres
    obtain rfl : _ = s' := Option.some_injective _ hres
    exact queueBounded_tryChargingList _ _
      (queueBounded_scheduleFlight fun e he => hs e he)

theorem queueBounded_simStep {cfg : Config} {s : SimState}
    (hs : queueBounded cfg.horizon s) :
    queueBounded cfg.horizon (simStep cfg s).state := by
  unfold simStep
  split
  · exact hs
  · rename_i e heq
    split
    · have hs0 : queueBounded cfg.horizon
          { s with eventQueue := removeEvent s.eventQueue e } :=
        fun x hx => hs x (removeEvent_subset hx)
      dsimp only
      split
      · exact queueBounded_processFlightEnd hs0
      · split
        · rename_i s1 hfc
          exact queueBounded_finishCharging hs0 hfc
        · exact hs0
    · exact hs

theorem queueBounded_seedFlights (cfg : Config) :
    ∀ n, queueBounded cfg.horizon (seedFlights cfg n)
  | 0 => by intro e he; simp [seedFlights] at he
  | n + 1 => queueBounded_scheduleFlight (queueBounded_seedFlights cfg n)

theorem queueBounded_stateAfter (cfg : Config) :
    ∀ n, queueBounded cfg.horizon (stateAfter cfg n)
  | 0 => queueBounded_seedFlights cfg _
  | n + 1 => by
    rw [stateAfter, simSteps]
    match h : simSteps cfg n with
    | .running s =>
      have := queueBounded_stateAfter cfg n
      rw [stateAfter, h] at this
      exact queueBounded_simStep this
    | .finished s | .crashed s =>
      have := queueBounded_stateAfter cfg n
      rwa [stateAfter, h] at this

theorem tryChargingStep_new_events {cfg : Config} {time : ℚ} {s : SimState}
    {i : ℕ} {e : Event}
    (he : e ∈ (tryChargingStep cfg time s i).eventQueue) :
    e ∈ s.eventQueue ∨ e.time ≤ cfg.horizon := by
  rw [tryChargingStep] at he
  split at he
  · match hq : s.chargingQueue with
    | [] => rw [hq] at he; exact Or.inl he
    | v :: rest =>
      rw [hq] at he
      simp only [] at he
      split at he
      · exact Or.inl he
      · rcases List.mem_append.1 he with h1 | h1
        · exact Or.inl h1
        · rcases List.mem_singleton.1 h1 with rfl
          exact Or.inr (not_lt.1 (by assumption))
  · exact Or.inl he

theorem tryChargingList_new_events {cfg : Config} {time : ℚ} :
    ∀ (l : List ℕ) (s : SimState) (e : Event),
      e ∈ (tryChargingList cfg time s l).eventQueue →
        e ∈ s.eventQueue ∨ e.time ≤ cfg.horizon
  | [], _, _, he => Or.inl he
  | i :: is, s, e, he => by
    rcases tryChargingList_new_events is (tryChargingStep cfg time s i) e he with h | h
    · exact tryChargingStep_new_events h
    · exact Or.inr h

/-- Claim C3: horizon containment.  (i) `scheduleFlight` enqueues nothing
when `startTime + flightDuration > horizon` (it returns the state
unchanged); (ii) `processFlightEnd` records nothing when
`startTime + duration > horizon`; (iii) any event added by a matching
pass has `time ≤ horizon` (so `tryCharging` enqueues nothing whose
`chargeEnd` exceeds the horizon); (iv) in every reachable state of every
run, every pending event has `time ≤ horizon` — hence every executed
completion, and every completion reflected in `Stats`, occurs at a time
`startTime + duration ≤ horizon`; (v) `run()` executes no event whose
timestamp exceeds the horizon (it stops instead). -/
theorem claim_C3_horizon_containment (cfg : Config) :
    (∀ s v t0, t0 + getFlightDuration (vehicleTypeOf cfg v) > cfg.horizon →
        scheduleFlight cfg s v t0 = s)
    ∧ (∀ s v t0 d, t0 + d > cfg.horizon → processFlightEnd cfg s v t0 d = s)
    ∧ (∀ s time e, e ∈ (tryCharging cfg s time).eventQueue →
        e ∈ s.eventQueue ∨ e.time ≤ cfg.horizon)
    ∧ (∀ n e, e ∈ (stateAfter cfg n).eventQueue → e.time ≤ cfg.horizon)
    ∧ (∀ s e, queueTop s.eventQueue = some e → ¬ e.time ≤ cfg.horizon →
        simStep cfg s = .finished s) := by
  refine ⟨fun s v t0 h => by rw [scheduleFlight, if_pos h],
          fun s v t0 d h => by rw [processFlightEnd, if_pos h],
          fun s time e he => tryChargingList_new_events _ s e he,
          fun n e he => queueBounded_stateAfter cfg n e he,
          fun s e htop hgt => by simp only [simStep, htop, if_neg hgt]⟩

/-- Witness for C3: in the run of `cfgA`, the initial BRAVO flight-end
event completes within the horizon, and a flight that would overrun is
not enqueued. -/
theorem claim_C3_witness :
    (⟨2/3, 0, .flightEnd 0 0 (2/3)⟩ : Event).time ≤ cfgA.horizon
    ∧ scheduleFlight cfgA (initState cfgA) 0 3 = initState cfgA := by
  constructor
  · exact (claim_C3_horizon_containment cfgA).2.2.2.1 0 ⟨2/3, 0, .flightEnd 0 0 (2/3)⟩
      (by decide)
  · exact (claim_C3_horizon_containment cfgA).1 (initState cfgA) 0 3 (by decide)

theorem updateStats_stats_same (s : SimState) (c : ℕ) (f : Stats → Stats) :
    (updateStats s c f).stats c = f (s.stats c) := by
  simp [updateStats]

theorem updateStats_stats_other {c' c : ℕ} (s : SimState) (f : Stats → Stats)
    (h : c' ≠ c) : (updateStats s c f).stats c' = s.stats c' := by
  simp [updateStats, h]

theorem tryChargingStep_stats (cfg : Config) (t : ℚ) (s : SimState) (i : ℕ) :
    (tryChargingStep cfg t s i).stats = s.stats
    ∧ (tryChargingStep cfg t s i).rngIndex = s.rngIndex := by
  rw [tryChargingStep]
  split
  · match hq : s.chargingQueue with
    | [] => exact ⟨rfl, rfl⟩
    | v :: rest =>
      simp only []
      split
      · exact ⟨rfl, rfl⟩
      · exact ⟨rfl, rfl⟩
  · exact ⟨rfl, rfl⟩

theorem tryChargingList_stats (cfg : Config) (t : ℚ) :
    ∀ (l : List ℕ) (s : SimState),
      (tryChargingList cfg t s l).stats = s.stats
      ∧ (tryChargingList cfg t s l).rngIndex = s.rngIndex
  | [], _ => ⟨rfl, rfl⟩
  | i :: is, s => by
    obtain ⟨h1, h2⟩ := tryChargingList_stats cfg t is (tryChargingStep cfg t s i)
    obtain ⟨h3, h4⟩ := tryChargingStep_stats cfg t s i
    exact ⟨by rw [tryChargingList, h1, h3], by rw [tryChargingList, h2, h4]⟩

theorem tryCharging_stats (cfg : Config) (s : SimState) (t : ℚ) :
    (tryCharging cfg s t).stats = s.stats := (tryChargingList_stats cfg t _ s).1

theorem tryCharging_rngIndex (cfg : Config) (s : SimState) (t : ℚ) :
    (tryCharging cfg s t).rngIndex = s.rngIndex := (tryChargingList_stats cfg t _ s).2

theorem scheduleFlight_stats (cfg : Config) (s : SimState) (v : ℕ) (t0 : ℚ) :
    (scheduleFlight cfg s v t0).stats = s.stats
    ∧ (scheduleFlight cfg s v t0).rngIndex = s.rngIndex := by
  rw [scheduleFlight]
  split
  · exact ⟨rfl, rfl⟩
  · exact ⟨rfl, rfl⟩

theorem faults_preserved_processFlightEnd {cfg : Config} {c : ℕ}
    (h0 : ∀ k, 0 ≤ cfg.samples k)
    (hrate : ∀ v, (vehicleTypeOf cfg v).company = c →
      (vehicleTypeOf cfg v).faultProbPerHour = 0)
    (s : SimState) (v : ℕ) (t0 d : ℚ) :
    ((processFlightEnd cfg s v t0 d).stats c).totalFaults
      = (s.stats c).totalFaults := by
  by_cases hend : t0 + d > cfg.horizon
  · rw [processFlightEnd, if_pos hend]
  · simp only [processFlightEnd, if_neg hend, tryCharging_stats]
    split
    · rename_i hcond
      by_cases hc : (vehicleTypeOf cfg v).company = c
      · exfalso
        rw [hrate v hc, zero_mul] at hcond
        exact absurd hcond (not_lt.2 (h0 _))
      · rw [updateStats_stats_other _ _ (Ne.symm hc),
            updateStats_stats_other _ _ (Ne.symm hc)]
    · by_cases hc : (vehicleTypeOf cfg v).company = c
      · rw [hc, updateStats_stats_same]
      · rw [updateStats_stats_other _ _ (Ne.symm hc)]

theorem faults_preserved_finishCharging {cfg : Config} {c : ℕ}
    {s s' : SimState} {v i : ℕ} (hfc : finishCharging cfg s v i = some s') :
    (s'.stats c).totalFaults = (s.stats c).totalFaults := by
  rw [finishCharging] at hfc
  match htop : queueTop s.eventQueue with
  | none => rw [htop] at hfc; cases hfc
  | some top =>
    rw [htop] at hfc
    injection hfc with h
    subst h
    rw [tryCharging_stats, (scheduleFlight_stats cfg _ v top.time).1]
    simp only [updateStats]
    by_cases hc : c = (vehicleTypeOf cfg v).company
    · simp [hc]
    · simp [hc]

theorem faultsZero_simStep {cfg : Config} {c : ℕ} {s : SimState}
    (h0 : ∀ k, 0 ≤ cfg.samples k)
    (hrate : ∀ v, (vehicleTypeOf cfg v).company = c →
      (vehicleTypeOf cfg v).faultProbPerHour = 0)
    (hz : (s.stats c).totalFaults = 0) :
    (((simStep cfg s).state).stats c).totalFaults = 0 := by
  unfold simStep
  split
  · exact hz
  · rename_i e heq
    split
    · dsimp only
      split
      · exact (faults_preserved_processFlightEnd h0 hrate _ _ _ _).trans hz
      · split
        · rename_i s1 hfc
          exact (faults_preserved_finishCharging hfc).trans hz
        · exact hz
    · exact hz

theorem seedFlights_stats (cfg : Config) :
    ∀ n, (seedFlights cfg n).stats = fun _ => ({} : Stats)
  | 0 => rfl
  | n + 1 => by
    rw [seedFlights, (scheduleFlight_stats cfg _ n 0).1, seedFlights_stats cfg n]

/-- Claim C8: the fault model.  (i) For every completed flight (one whose
`endTime` passes the horizon check), exactly one random sample is
consumed and the operator's fault counter is incremented exactly when
`sample < faultProbPerHour * duration`.  (ii) If every vehicle type of an
operator `c` has fault rate 0 and the samples are non-negative (as draws
from [0,1) are), then operator `c`'s fault count is 0 in every reachable
state of every run, regardless of horizon or fleet. -/
theorem claim_C8_fault_model (cfg : Config) :
    (∀ s v t0 d, ¬ t0 + d > cfg.horizon →
        (processFlightEnd cfg s v t0 d).rngIndex = s.rngIndex + 1
        ∧ ((processFlightEnd cfg s v t0 d).stats (vehicleTypeOf cfg v).company).totalFaults
            = (s.stats (vehicleTypeOf cfg v).company).totalFaults
              + (if cfg.samples s.rngIndex
                    < (vehicleTypeOf cfg v).faultProbPerHour * d then 1 else 0))
    ∧ (∀ c, (∀ k, 0 ≤ cfg.samples k) →
        (∀ v, (vehicleTypeOf cfg v).company = c →
          (vehicleTypeOf cfg v).faultProbPerHour = 0) →
        ∀ n, ((stateAfter cfg n).stats c).totalFaults = 0) := by
  constructor
  · intro s v t0 d h
    simp only [processFlightEnd, if_neg h, tryCharging_stats, tryCharging_rngIndex,
      updateStats]
    constructor
    · split <;> rfl
    · split
      · simp
      · simp
  · intro c h0 hrate n
    induction n with
    | zero =>
      show ((seedFlights cfg _).stats c).totalFaults = 0
      rw [seedFlights_stats]
    | succ n ih =>
      rw [stateAfter, simSteps]
      match h : simSteps cfg n with
      | .running s =>
        rw [stateAfter, h] at ih
        exact faultsZero_simStep h0 hrate ih
      | .finished s => rwa [stateAfter, h] at ih
      | .crashed s => rwa [stateAfter, h] at ih

/-- Witness for C8: in the run of `cfgA` (whose BRAVO and ALPHA entries
carry positive fault rates, so part (ii) is instantiated at an absent
operator id 9 and at a rate-zero single-vehicle fleet) and for a concrete
flight completion. -/
theorem claim_C8_witness :
    (processFlightEnd cfgA (initState cfgA) 0 0 (2/3)).rngIndex
        = (initState cfgA).rngIndex + 1
    ∧ ((stateAfter ⟨3, 1, [⟨0, 100, 100, 1/5, 3/2, 5, 0⟩], fun _ => 1/2⟩ 4).stats 0).totalFaults
        = 0 := by
  refine ⟨((claim_C8_fault_model cfgA).1 (initState cfgA) 0 0 (2/3) (by decide)).1, ?_⟩
  exact (claim_C8_fault_model _).2 0 (fun k => by norm_num)
    (fun v => by
      match v with
      | 0 => intro _; rfl
      | n + 1 => intro h; rfl) 4

/-- Does this event reference vehicle `v` (as either closure's capture)? -/
def mentionsVehicle (v : ℕ) (e : Event) : Bool :=
  match e.action with
  | .flightEnd w _ _ => w == v
  | .chargeEnd w _ => w == v

/-- Vehicle `v` has left the simulation: it is not in the waiting line,
occupies no charger slot, and no pending event references it. -/
def vehicleAbsent (v : ℕ) (s : SimState) : Prop :=
  v ∉ s.chargingQueue
  ∧ (∀ o ∈ s.activeChargers, o ≠ some v)
  ∧ ∀ e ∈ s.eventQueue, mentionsVehicle v e = false

instance (v : ℕ) (s : SimState) : Decidable (vehicleAbsent v s) := by
  unfold vehicleAbsent
  infer_instance

theorem queueTop_mem : ∀ {q : List Event} {e : Event},
    queueTop q = some e → e ∈ q
  | [], e, h => by simp [queueTop] at h
  | x :: xs, e, h => by
    rw [queueTop] at h
    match hx : queueTop xs with
    | none =>
      rw [hx] at h
      injection h with h
      exact h ▸ List.mem_cons_self x xs
    | some m =>
      rw [hx] at h
      dsimp only at h
      by_cases hb : eventBefore x m = true
      · rw [if_pos hb] at h
        injection h with h
        exact h ▸ List.mem_cons_self x xs
      · rw [if_neg hb] at h
        injection h with h
        exact List.mem_cons_of_mem x (h ▸ queueTop_mem hx)

theorem setSlot_getD_ne (l : List (Option ℕ)) (j i : ℕ) (a : Option ℕ)
    (h : i ≠ j) : (l.set j a).getD i none = l.getD i none := by
  induction l generalizing i j with
  | nil => rfl
  | cons x xs ih =>
    cases j with
    | zero =>
      cases i with
      | zero => exact absurd rfl h
      | succ i => rfl
    | succ j =>
      cases i with
      | zero => rfl
      | succ i => exact ih j i fun h' => h (congrArg Nat.succ h')

theorem setSlot_getD_eq (l : List (Option ℕ)) (j : ℕ) (a : Option ℕ)
    (h : j < l.length) : (l.set j a).getD j none = a := by
  induction l generalizing j with
  | nil => exact absurd h (Nat.not_lt_zero j)
  | cons x xs ih =>
    cases j with
    | zero => rfl
    | succ j => exact ih j (Nat.lt_of_succ_lt_succ h)

theorem vehicleAbsent_pushEvent {v : ℕ} {s : SimState} {t : ℚ}
    {a : EventAction} (hs : vehicleAbsent v s)
    (ha : mentionsVehicle v ⟨t, s.nextSeq, a⟩ = false) :
    vehicleAbsent v (pushEvent s t a) := by
  refine ⟨hs.1, hs.2.1, fun e he => ?_⟩
  rcases List.mem_append.1 he with h1 | h1
  · exact hs.2.2 e h1
  · rcases List.mem_singleton.1 h1 with rfl
    exact ha

theorem vehicleAbsent_updateStats {v : ℕ} {s : SimState} {c : ℕ}
    {f : Stats → Stats} (hs : vehicleAbsent v s) :
    vehicleAbsent v (updateStats s c f) := hs

theorem vehicleAbsent_scheduleFlight {cfg : Config} {v w : ℕ} {s : SimState}
    {t0 : ℚ} (hs : vehicleAbsent v s) (hw : w ≠ v) :
    vehicleAbsent v (scheduleFlight cfg s w t0) := by
  rw [scheduleFlight]
  split
  · exact hs
  · exact vehicleAbsent_pushEvent hs (by simp [mentionsVehicle, hw])

theorem vehicleAbsent_tryChargingStep {cfg : Config} {v : ℕ} {time : ℚ}
    {s : SimState} {i : ℕ} (hs : vehicleAbsent v s) :
    vehicleAbsent v (tryChargingStep cfg time s i) := by
  rw [tryChargingStep]
  split
  · match hq : s.chargingQueue with
    | [] => exact hs
    | u :: rest =>
      simp only []
      have hvq := hs.1
      rw [hq] at hvq
      have hvu : u ≠ v := fun h => hvq (h ▸ List.mem_cons_self u rest)
      have hvrest : v ∉ rest := fun h => hvq (List.mem_cons_of_mem u h)
      split
      · exact ⟨hvrest, hs.2.1, hs.2.2⟩
      · refine vehicleAbsent_pushEvent
          ⟨hvrest, fun o ho => ?_, hs.2.2⟩ (by simp [mentionsVehicle, hvu])
        rcases List.mem_or_eq_of_mem_set ho with h1 | h1
        · exact hs.2.1 o h1
        · rw [h1]
          simp [hvu]
  · exact hs

theorem vehicleAbsent_tryChargingList {cfg : Config} {v : ℕ} {time : ℚ} :
    ∀ (l : List ℕ) (s : SimState), vehicleAbsent v s →
      vehicleAbsent v (tryChargingList cfg time s l)
  | [], _, hs => hs
  | _ :: is, s, hs =>
    vehicleAbsent_tryChargingList is _ (vehicleAbsent_tryChargingStep hs)

theorem vehicleAbsent_processFlightEnd {cfg : Config} {v w : ℕ}
    {s : SimState} {t0 d : ℚ} (hs : vehicleAbsent v s) (hw : w ≠ v) :
    vehicleAbsent v (processFlightEnd cfg s w t0 d) := by
  rw [processFlightEnd]
  split
  · exact hs
  · dsimp only
    refine vehicleAbsent_tryChargingList _ _ ?_
    have hline : v ∉ s.chargingQueue ++ [w] := by
      intro hv
      rcases List.mem_append.1 hv with h1 | h1
      · exact hs.1 h1
      · exact hw (List.mem_singleton.1 h1).symm
    split
    · exact ⟨hline, hs.2.1, hs.2.2⟩
    · exact ⟨hline, hs.2.1, hs.2.2⟩

theorem vehicleAbsent_finishCharging {cfg : Config} {v w i : ℕ}
    {s s' : SimState} (hs : vehicleAbsent v s) (hw : w ≠ v)
    (hfc : finishCharging cfg s w i = some s') : vehicleAbsent v s' := by
  rw [finishCharging] at hfc
  match htop : queueTop s.eventQueue with
  | none => rw [htop] at hfc; cases hfc
  | some top =>
    rw [htop] at hfc
    injection hfc with h
    subst h
    refine vehicleAbsent_tryChargingList _ _
      (vehicleAbsent_scheduleFlight ⟨hs.1, fun o ho => ?_, hs.2.2⟩ hw)
    rcases List.mem_or_eq_of_mem_set ho with h1 | h1
    · exact hs.2.1 o h1
    · rw [h1]
      simp

theorem vehicleAbsent_simStep {cfg : Config} {v : ℕ} {s : SimState}
    (hs : vehicleAbsent v s) : vehicleAbsent v ((simStep cfg s).state) := by
  unfold simStep
  split
  · exact hs
  · rename_i e heq
    have hemem : e ∈ s.eventQueue := queueTop_mem heq
    have hment : mentionsVehicle v e = false := hs.2.2 e hemem
    have hs0 : vehicleAbsent v { s with eventQueue := removeEvent s.eventQueue e } :=
      ⟨hs.1, hs.2.1, fun x hx => hs.2.2 x (removeEvent_subset hx)⟩
    split
    · dsimp only
      split
      · rename_i w t0 d hact
        have hw : w ≠ v := by
          rw [mentionsVehicle, hact] at hment
          simpa using hment
        exact vehicleAbsent_processFlightEnd hs0 hw
      · rename_i w i hact
        have hw : w ≠ v := by
          rw [mentionsVehicle, hact] at hment
          simpa using hment
        split
        · rename_i s1 hfc
          exact vehicleAbsent_finishCharging hs0 hw hfc
        · exact hs0
    · exact hs

/-- Claim C5: drop on overrun.  (i) If the head `v` of the waiting line is
dequeued for an idle slot `i` and `now + timeToCharge` exceeds the
horizon, the step leaves the state unchanged except that `v` has left the
line: the slot stays idle, no event is enqueued, no stats change.
(ii) The remainder of the pass (the loop indices after `i`, none equal to
`i`) leaves slot `i` idle and enqueues no charge-completion for slot `i`.
(iii) A vehicle that is in no queue, slot or event stays absent forever
(each further `run()` iteration preserves absence) — together with (i),
a dropped vehicle never charges or flies again. -/
theorem claim_C5_drop_on_overrun (cfg : Config) :
    (∀ time s i v rest, s.chargingQueue = v :: rest →
        s.activeChargers.getD i none = none →
        time + (vehicleTypeOf cfg v).timeToCharge > cfg.horizon →
          tryChargingStep cfg time s i = { s with chargingQueue := rest })
    ∧ (∀ time s l i, i ∉ l → s.activeChargers.getD i none = none →
        (tryChargingList cfg time s l).activeChargers.getD i none = none
        ∧ ∀ e ∈ (tryChargingList cfg time s l).eventQueue,
            e ∈ s.eventQueue ∨ ∀ w, e.action ≠ .chargeEnd w i)
    ∧ (∀ v s, vehicleAbsent v s → vehicleAbsent v ((simStep cfg s).state)) := by
  refine ⟨fun time s i v rest hq hfree hover => ?_, fun time s l i hil hfree => ?_,
          fun v s hs => vehicleAbsent_simStep hs⟩
  · rw [tryChargingStep, if_pos hfree, hq]
    simp only [if_pos hover]
  · induction l generalizing s with
    | nil => exact ⟨hfree, fun e he => Or.inl he⟩
    | cons j js ih =>
      have hij : i ≠ j := fun h => hil (h ▸ List.mem_cons_self j js)
      have hijs : i ∉ js := fun h => hil (List.mem_cons_of_mem j h)
      have hstep_slot :
          (tryChargingStep cfg time s j).activeChargers.getD i none = none := by
        rw [tryChargingStep]
        split
        · match hq : s.chargingQueue with
          | [] => exact hfree
          | u :: rest =>
            simp only []
            split
            · exact hfree
            · show (s.activeChargers.set j (some u)).getD i none = none
              rw [setSlot_getD_ne _ _ _ _ hij]
              exact hfree
        · exact hfree
      obtain ⟨h1, h2⟩ := ih (tryChargingStep cfg time s j) hijs hstep_slot
      refine ⟨h1, fun e he => ?_⟩
      rcases h2 e he with h3 | h3
      · rw [tryChargingStep] at h3
        split at h3
        · match hq : s.chargingQueue with
          | [] => rw [hq] at h3; exact Or.inl h3
          | u :: rest =>
            rw [hq] at h3
            simp only [] at h3
            split at h3
            · exact Or.inl h3
            · rcases List.mem_append.1 h3 with h4 | h4
              · exact Or.inl h4
              · rcases List.mem_singleton.1 h4 with rfl
                exact Or.inr fun w hw => hij (by injection hw with _ h; exact h.symm)
        · exact Or.inl h3
      · exact Or.inr h3

/-- Witness for C5: in `cfgB`, a CHARLIE at the head of the line at time
3/2 would finish charging at 23/10 > 2, so it is dropped, and an absent
vehicle stays absent through a step. -/
theorem claim_C5_witness :
    tryChargingStep cfgB (3/2) ⟨[], 0, [0, 2], [none], fun _ => {}, 0⟩ 0
      = { (⟨[], 0, [0, 2], [none], fun _ => {}, 0⟩ : SimState) with chargingQueue := [2] }
    ∧ vehicleAbsent 9 ((simStep cfgB (initState cfgB)).state) := by
  constructor
  · exact (claim_C5_drop_on_overrun cfgB).1 (3/2) _ 0 0 [2] rfl rfl (by decide)
  · exact (claim_C5_drop_on_overrun cfgB).2.2 9 (initState cfgB) (by decide)

/-- How many places of the state reference vehicle `v`: occurrences in the
waiting line plus pending events whose closure captures `v`.  (Charger
slots are accounted separately, tied to their pending charge-completion
events by `Inv`.) -/
def mentionCount (v : ℕ) (s : SimState) : ℕ :=
  s.chargingQueue.count v + s.eventQueue.countP (fun e => mentionsVehicle v e)

/-- The exclusivity invariant of the allocator.  (i) The slot array always
has the configured pool size; (ii) a pending charge-completion for slot
`i` implies slot `i` is occupied by exactly that vehicle; (iii) an
occupied slot has a pending charge-completion for it; (iv) every vehicle
is referenced by at most one place (line or event). -/
def Inv (cfg : Config) (s : SimState) : Prop :=
  s.activeChargers.length = cfg.numChargers
  ∧ (∀ e ∈ s.eventQueue, ∀ w i, e.action = .chargeEnd w i →
      s.activeChargers.getD i none = some w)
  ∧ (∀ i w, s.activeChargers.getD i none = some w →
      ∃ e ∈ s.eventQueue, e.action = .chargeEnd w i)
  ∧ (∀ v, mentionCount v s ≤ 1)

theorem removeEvent_perm : ∀ {q : List Event} {e : Event},
    e ∈ q → q.Perm (e :: removeEvent q e)
  | [], e, h => absurd h (List.not_mem_nil e)
  | x :: xs, e, h => by
    rw [removeEvent]
    by_cases hx : x = e
    · subst hx
      rw [if_pos rfl]
    · rw [if_neg hx]
      have he : e ∈ xs := by
        rcases List.mem_cons.1 h with h1 | h1
        · exact absurd h1.symm hx
        · exact h1
      exact ((removeEvent_perm he).cons x).trans (List.Perm.swap e x _)

theorem removeEvent_mem_of_ne : ∀ {q : List Event} {x e : Event},
    x ∈ q → x ≠ e → x ∈ removeEvent q e
  | [], x, e, h, _ => absurd h (List.not_mem_nil x)
  | y :: ys, x, e, h, hne => by
    rw [removeEvent]
    by_cases hy : y = e
    · rcases List.mem_cons.1 h with h1 | h1
      · exact absurd (h1.trans hy) hne
      · rw [if_pos hy]
        exact h1
    · rw [if_neg hy]
      rcases List.mem_cons.1 h with h1 | h1
      · exact h1 ▸ List.mem_cons_self y _
      · exact List.mem_cons_of_mem y (removeEvent_mem_of_ne h1 hne)

theorem getD_some_lt : ∀ {l : List (Option ℕ)} {i : ℕ} {w : ℕ},
    l.getD i none = some w → i < l.length
  | [], i, w, h => by cases h
  | x :: xs, 0, w, _ => Nat.zero_lt_succ _
  | x :: xs, i + 1, w, h => Nat.succ_lt_succ (getD_some_lt (l := xs) h)

theorem getD_replicate_none : ∀ (k i : ℕ),
    (List.replicate k (none : Option ℕ)).getD i none = none
  | 0, _ => rfl
  | k + 1, 0 => rfl
  | k + 1, i + 1 => getD_replicate_none k i

/-- A matching-pass iteration never increases any vehicle's reference
count (it moves the head of the line into a slot/event or drops it). -/
theorem mention_tryChargingStep (cfg : Config) (time : ℚ) (s : SimState)
    (j v : ℕ) :
    mentionCount v (tryChargingStep cfg time s j) ≤ mentionCount v s := by
  rw [tryChargingStep]
  split
  · match hq : s.chargingQueue with
    | [] => exact Nat.le_refl _
    | u :: rest =>
      simp only []
      split
      · rw [mentionCount, mentionCount, hq]
        exact Nat.add_le_add_right (List.count_le_count_cons v u rest) _
      · rw [mentionCount, mentionCount, hq]
        simp only [pushEvent, List.countP_append, List.count_cons]
        have hsing : List.countP (fun e => mentionsVehicle v e)
            [⟨time + (vehicleTypeOf cfg u).timeToCharge, s.nextSeq,
              .chargeEnd u j⟩] = if u == v then 1 else 0 := by
          simp [List.countP_cons, mentionsVehicle]
        rw [hsing]
        by_cases hv : u == v
        · simp only [hv, if_true]
          omega
        · simp only [hv, if_false]
          omega
  · exact Nat.le_refl _

theorem inv_tryChargingStep {cfg : Config} {time : ℚ} {s : SimState} {j : ℕ}
    (h : Inv cfg s) (hj : j < cfg.numChargers) :
    Inv cfg (tryChargingStep cfg time s j) := by
  obtain ⟨hlen, hA, hB, hM⟩ := h
  have hMstep := fun v => Nat.le_trans (mention_tryChargingStep cfg time s j v) (hM v)
  rw [tryChargingStep]
  rw [tryChargingStep] at hMstep
  split
  · rename_i hfree
    rw [if_pos hfree] at hMstep
    match hq : s.chargingQueue with
    | [] => exact ⟨hlen, hA, hB, fun v => by
        have := hMstep v
        rwa [hq] at this⟩
    | u :: rest =>
      rw [hq] at hMstep
      simp only [] at hMstep ⊢
      split
      · rename_i hover
        rw [if_pos hover] at hMstep
        exact ⟨hlen, hA, hB, hMstep⟩
      · rename_i hfit
        rw [if_neg hfit] at hMstep
        refine ⟨?_, ?_, ?_, hMstep⟩
        · show (s.activeChargers.set j (some u)).length = cfg.numChargers
          rw [List.length_set]
          exact hlen
        · intro e he w i hact
          rcases List.mem_append.1 he with h1 | h1
          · have hAi := hA e h1 w i hact
            have hij : i ≠ j := by
              intro hij
              rw [hij, hfree] at hAi
              cases hAi
            show (s.activeChargers.set j (some u)).getD i none = some w
            rw [setSlot_getD_ne _ _ _ _ hij]
            exact hAi
          · rcases List.mem_singleton.1 h1 with rfl
            injection hact with hw hi
            subst hw
            subst hi
            show (s.activeChargers.set j (some u)).getD j none = some u
            exact setSlot_getD_eq _ _ _ (hlen ▸ hj)
        · intro i w hslot
          have hslot' : (s.activeChargers.set j (some u)).getD i none = some w := hslot
          by_cases hij : i = j
          · subst hij
            rw [setSlot_getD_eq _ _ _ (hlen ▸ hj)] at hslot'
            injection hslot' with hw
            refine ⟨⟨time + (vehicleTypeOf cfg u).timeToCharge, s.nextSeq,
              .chargeEnd u i⟩, List.mem_append.2 (Or.inr (List.mem_singleton.2 rfl)), ?_⟩
            rw [hw]
          · rw [setSlot_getD_ne _ _ _ _ hij] at hslot'
            obtain ⟨e', he', hact'⟩ := hB i w hslot'
            exact ⟨e', List.mem_append.2 (Or.inl he'), hact'⟩
  · exact ⟨hlen, hA, hB, hM⟩

theorem inv_tryChargingList {cfg : Config} {time : ℚ} :
    ∀ (l : List ℕ) (s : SimState), Inv cfg s → (∀ j ∈ l, j < cfg.numChargers) →
      Inv cfg (tryChargingList cfg time s l)
  | [], _, h, _ => h
  | j :: js, s, h, hjs =>
    inv_tryChargingList js _
      (inv_tryChargingStep h (hjs j (List.mem_cons_self j js)))
      (fun i hi => hjs i (List.mem_cons_of_mem j hi))

theorem inv_tryCharging {cfg : Config} {time : ℚ} {s : SimState}
    (h : Inv cfg s) : Inv cfg (tryCharging cfg s time) :=
  inv_tryChargingList _ s h (fun j hj => List.mem_range.1 hj)

theorem setSlot_getD_none (l : List (Option ℕ)) (i : ℕ) :
    (l.set i none).getD i none = none := by
  induction l generalizing i with
  | nil => rfl
  | cons x xs ih =>
    cases i with
    | zero => rfl
    | succ i => exact ih i

theorem inv_scheduleFlight {cfg : Config} {s : SimState} {w : ℕ} {t0 : ℚ}
    (hlen : s.activeChargers.length = cfg.numChargers)
    (hA : ∀ e ∈ s.eventQueue, ∀ w' i, e.action = .chargeEnd w' i →
      s.activeChargers.getD i none = some w')
    (hB : ∀ i w', s.activeChargers.getD i none = some w' →
      ∃ e ∈ s.eventQueue, e.action = .chargeEnd w' i)
    (hM : ∀ v, mentionCount v s ≤ 1) (hw0 : mentionCount w s = 0) :
    Inv cfg (scheduleFlight cfg s w t0) := by
  rw [scheduleFlight]
  split
  · exact ⟨hlen, hA, hB, hM⟩
  · refine ⟨hlen, ?_, ?_, ?_⟩
    · intro e he w' i hact
      rcases List.mem_append.1 he with h1 | h1
      · exact hA e h1 w' i hact
      · rcases List.mem_singleton.1 h1 with rfl
        cases hact
    · intro i w' hslot
      obtain ⟨e', he', hact'⟩ := hB i w' hslot
      exact ⟨e', List.mem_append.2 (Or.inl he'), hact'⟩
    · intro v
      show s.chargingQueue.count v
        + (s.eventQueue
            ++ [(⟨t0 + getFlightDuration (vehicleTypeOf cfg w), s.nextSeq,
                .flightEnd w t0 (getFlightDuration (vehicleTypeOf cfg w))⟩ : Event)]).countP
            (fun e => mentionsVehicle v e) ≤ 1
      rw [List.countP_append]
      have hsing : List.countP (fun e => mentionsVehicle v e)
          [(⟨t0 + getFlightDuration (vehicleTypeOf cfg w), s.nextSeq,
            .flightEnd w t0 (getFlightDuration (vehicleTypeOf cfg w))⟩ : Event)]
          = if w == v then 1 else 0 := by
        simp [List.countP_cons, mentionsVehicle]
      rw [hsing]
      by_cases hv : w = v
      · subst hv
        have := hw0
        rw [mentionCount] at this
        simp only [beq_self_eq_true, if_true]
        omega
      · have := hM v
        rw [mentionCount] at this
        have hbv : (w == v) = false := beq_eq_false_iff_ne.2 hv
        rw [hbv]
        simpa using this

theorem inv_processFlightEnd {cfg : Config} {s : SimState} {w : ℕ} {t0 d : ℚ}
    (hlen : s.activeChargers.length = cfg.numChargers)
    (hA : ∀ e ∈ s.eventQueue, ∀ w' i, e.action = .chargeEnd w' i →
      s.activeChargers.getD i none = some w')
    (hB : ∀ i w', s.activeChargers.getD i none = some w' →
      ∃ e ∈ s.eventQueue, e.action = .chargeEnd w' i)
    (hM : ∀ v, mentionCount v s ≤ 1) (hw0 : mentionCount w s = 0) :
    Inv cfg (processFlightEnd cfg s w t0 d) := by
  rw [processFlightEnd]
  split
  · exact ⟨hlen, hA, hB, hM⟩
  · dsimp only
    refine inv_tryCharging ?_
    have hline : ∀ v : ℕ, (s.chargingQueue ++ [w]).count v
        = s.chargingQueue.count v + (if w == v then 1 else 0) := by
      intro v
      rw [List.count_append]
      simp [List.count_cons]
    split
    · refine ⟨hlen, fun e he w' i hact => hA e he w' i hact,
        fun i w' hslot => hB i w' hslot, fun v => ?_⟩
      show (s.chargingQueue ++ [w]).count v
          + s.eventQueue.countP (fun e => mentionsVehicle v e) ≤ 1
      rw [hline v]
      by_cases hv : w = v
      · subst hv
        have := hw0
        rw [mentionCount] at this
        simp only [beq_self_eq_true, if_true]
        omega
      · have := hM v
        rw [mentionCount] at this
        rw [beq_eq_false_iff_ne.2 hv]
        simpa using this
    · refine ⟨hlen, fun e he w' i hact => hA e he w' i hact,
        fun i w' hslot => hB i w' hslot, fun v => ?_⟩
      show (s.chargingQueue ++ [w]).count v
          + s.eventQueue.countP (fun e => mentionsVehicle v e) ≤ 1
      rw [hline v]
      by_cases hv : w = v
      · subst hv
        have := hw0
        rw [mentionCount] at this
        simp only [beq_self_eq_true, if_true]
        omega
      · have := hM v
        rw [mentionCount] at this
        rw [beq_eq_false_iff_ne.2 hv]
        simpa using this

theorem inv_finishCharging {cfg : Config} {s s' : SimState} {w i : ℕ}
    (hlen : s.activeChargers.length = cfg.numChargers)
    (hA : ∀ e ∈ s.eventQueue, ∀ w' i', e.action = .chargeEnd w' i' →
      s.activeChargers.getD i' none = some w')
    (hB' : ∀ i' w', i' ≠ i → s.activeChargers.getD i' none = some w' →
      ∃ e ∈ s.eventQueue, e.action = .chargeEnd w' i')
    (hnoi : ∀ e ∈ s.eventQueue, ∀ w'', e.action ≠ .chargeEnd w'' i)
    (hM : ∀ v, mentionCount v s ≤ 1) (hw0 : mentionCount w s = 0)
    (hfc : finishCharging cfg s w i = some s') : Inv cfg s' := by
  rw [finishCharging] at hfc
  match htop : queueTop s.eventQueue with
  | none => rw [htop] at hfc; cases hfc
  | some top =>
    rw [htop] at hfc
    injection hfc with h
    subst h
    refine inv_tryCharging (inv_scheduleFlight ?_ ?_ ?_ ?_ ?_)
    · show (s.activeChargers.set i none).length = cfg.numChargers
      rw [List.length_set]
      exact hlen
    · intro e he w' i' hact
      have hne : i' ≠ i := fun hii => hnoi e he w' (hii ▸ hact)
      show (s.activeChargers.set i none).getD i' none = some w'
      rw [setSlot_getD_ne _ _ _ _ hne]
      exact hA e he w' i' hact
    · intro i' w' hslot
      have hslot' : (s.activeChargers.set i none).getD i' none = some w' := hslot
      by_cases hii : i' = i
      · subst hii
        rw [setSlot_getD_none] at hslot'
        cases hslot'
      · rw [setSlot_getD_ne _ _ _ _ hii] at hslot'
        exact hB' i' w' hii hslot'
    · exact hM
    · exact hw0

/-- Number of occupied charger slots. -/
def countOccupied (l : List (Option ℕ)) : ℕ := (l.filter Option.isSome).length

/-- The observable exclusivity property claim C6 asks for: the pool has its
configured size, and no vehicle is simultaneously in the waiting line and
in a charger slot. -/
def Excl (cfg : Config) (s : SimState) : Prop :=
  s.activeChargers.length = cfg.numChargers
  ∧ ∀ v ∈ s.chargingQueue, ∀ i, s.activeChargers.getD i none ≠ some v

theorem excl_of_inv {cfg : Config} {s : SimState} (h : Inv cfg s) :
    Excl cfg s := by
  obtain ⟨hlen, hA, hB, hM⟩ := h
  refine ⟨hlen, fun v hv i hslot => ?_⟩
  obtain ⟨e, he, hact⟩ := hB i v hslot
  have h1 : 0 < s.chargingQueue.count v := List.count_pos_iff.2 hv
  have h2 : 0 < s.eventQueue.countP (fun e => mentionsVehicle v e) :=
    List.countP_pos_iff.2 ⟨e, he, by simp [mentionsVehicle, hact]⟩
  have h3 := hM v
  rw [mentionCount] at h3
  omega

theorem inv_simStep {cfg : Config} {s : SimState} (h : Inv cfg s) :
    (∀ s', simStep cfg s = .running s' → Inv cfg s')
    ∧ (∀ sf, simStep cfg s = .finished sf → Inv cfg sf)
    ∧ (∀ s0, simStep cfg s = .crashed s0 → Excl cfg s0) := by
  obtain ⟨hlen, hA, hB, hM⟩ := h
  match htop : queueTop s.eventQueue with
  | none =>
    have hstep : simStep cfg s = .finished s := by
      simp only [simStep, htop]
    refine ⟨fun s' hst => ?_, fun sf hst => ?_, fun s0 hst => ?_⟩ <;>
      rw [hstep] at hst
    · exact SimOutcome.noConfusion hst
    · injection hst with h'
      subst h'
      exact ⟨hlen, hA, hB, hM⟩
    · exact SimOutcome.noConfusion hst
  | some e =>
    have hemem := queueTop_mem htop
    by_cases hle : e.time ≤ cfg.horizon
    · have hperm := removeEvent_perm hemem
      have hsplit : ∀ p : Event → Bool, s.eventQueue.countP p
          = (removeEvent s.eventQueue e).countP p + (if p e then 1 else 0) := by
        intro p
        rw [hperm.countP_eq p, List.countP_cons]
      have hM0 : ∀ v, mentionCount v
          { s with eventQueue := removeEvent s.eventQueue e } ≤ 1 := by
        intro v
        refine Nat.le_trans ?_ (hM v)
        rw [mentionCount, mentionCount]
        refine Nat.add_le_add_left ?_ _
        rw [hsplit (fun e => mentionsVehicle v e)]
        exact Nat.le_add_right _ _
      have hmention0 : ∀ w, mentionsVehicle w e = true →
          mentionCount w { s with eventQueue := removeEvent s.eventQueue e } = 0 := by
        intro w hw
        have h1 := hM w
        rw [mentionCount, hsplit (fun e => mentionsVehicle w e), hw] at h1
        simp only [if_true] at h1
        rw [mentionCount]
        dsimp only
        omega
      have hA0 : ∀ x ∈ removeEvent s.eventQueue e, ∀ w' i',
          x.action = .chargeEnd w' i' →
            s.activeChargers.getD i' none = some w' :=
        fun x hx => hA x (removeEvent_subset hx)
      match hact : e.action with
      | .flightEnd w t0 d =>
        have hstep : simStep cfg s = .running (processFlightEnd cfg
            { s with eventQueue := removeEvent s.eventQueue e } w t0 d) := by
          simp only [simStep, htop, if_pos hle, hact]
        have hB0 : ∀ i' w', s.activeChargers.getD i' none = some w' →
            ∃ x ∈ removeEvent s.eventQueue e, x.action = .chargeEnd w' i' := by
          intro i' w' hslot
          obtain ⟨x, hx, hactx⟩ := hB i' w' hslot
          have hxe : x ≠ e := by
            intro hxe
            rw [hxe, hact] at hactx
            cases hactx
          exact ⟨x, removeEvent_mem_of_ne hx hxe, hactx⟩
        have hw0 : mentionCount w
            { s with eventQueue := removeEvent s.eventQueue e } = 0 :=
          hmention0 w (by simp [mentionsVehicle, hact])
        refine ⟨fun s' hst => ?_, fun sf hst => ?_, fun s0 hst => ?_⟩ <;>
          rw [hstep] at hst
        · injection hst with h'
          subst h'
          exact inv_processFlightEnd hlen hA0 hB0 hM0 hw0
        · exact SimOutcome.noConfusion hst
        · exact SimOutcome.noConfusion hst
      | .chargeEnd w i =>
        have hife : (if mentionsVehicle w e = true then 1 else 0) = 1 := by
          simp [mentionsVehicle, hact]
        have hnoi : ∀ x ∈ removeEvent s.eventQueue e, ∀ w'',
            x.action ≠ .chargeEnd w'' i := by
          intro x hx w'' hactx
          have hxq := removeEvent_subset hx
          have h1 := hA x hxq w'' i hactx
          have h2 := hA e hemem w i hact
          rw [h1] at h2
          injection h2 with hww
          subst hww
          have hx1 : 0 < (removeEvent s.eventQueue e).countP
              (fun x => mentionsVehicle w'' x) :=
            List.countP_pos_iff.2 ⟨x, hx, by simp [mentionsVehicle, hactx]⟩
          have h3 := hM w''
          rw [mentionCount, hsplit (fun x => mentionsVehicle w'' x), hife] at h3
          omega
        have hB0' : ∀ i' w', i' ≠ i →
            s.activeChargers.getD i' none = some w' →
            ∃ x ∈ removeEvent s.eventQueue e, x.action = .chargeEnd w' i' := by
          intro i' w' hne hslot
          obtain ⟨x, hx, hactx⟩ := hB i' w' hslot
          have hxe : x ≠ e := by
            intro hxe
            rw [hxe, hact] at hactx
            injection hactx with _ hii
            exact hne hii.symm
          exact ⟨x, removeEvent_mem_of_ne hx hxe, hactx⟩
        have hw0 : mentionCount w
            { s with eventQueue := removeEvent s.eventQueue e } = 0 :=
          hmention0 w (by simp [mentionsVehicle, hact])
        match hfc : finishCharging cfg
            { s with eventQueue := removeEvent s.eventQueue e } w i with
        | some s1 =>
          have hstep : simStep cfg s = .running s1 := by
            simp only [simStep, htop, if_pos hle, hact, hfc]
          refine ⟨fun s' hst => ?_, fun sf hst => ?_, fun s0 hst => ?_⟩ <;>
            rw [hstep] at hst
          · injection hst with h'
            subst h'
            exact @inv_finishCharging cfg
              { s with eventQueue := removeEvent s.eventQueue e } s1 w i
              hlen hA0 hB0' hnoi hM0 hw0 hfc
          · exact SimOutcome.noConfusion hst
          · exact SimOutcome.noConfusion hst
        | none =>
          have hstep : simStep cfg s = .crashed
              { s with eventQueue := removeEvent s.eventQueue e } := by
            simp only [simStep, htop, if_pos hle, hact, hfc]
          refine ⟨fun s' hst => ?_, fun sf hst => ?_, fun s0 hst => ?_⟩ <;>
            rw [hstep] at hst
          · exact SimOutcome.noConfusion hst
          · exact SimOutcome.noConfusion hst
          · injection hst with h'
            subst h'
            have hexcl := excl_of_inv ⟨hlen, hA, hB, hM⟩
            exact ⟨hexcl.1, fun v hv i' => hexcl.2 v hv i'⟩
    · have hstep : simStep cfg s = .finished s := by
        simp only [simStep, htop, if_neg hle]
      refine ⟨fun s' hst => ?_, fun sf hst => ?_, fun s0 hst => ?_⟩ <;>
        rw [hstep] at hst
      · exact SimOutcome.noConfusion hst
      · injection hst with h'
        subst h'
        exact ⟨hlen, hA, hB, hM⟩
      · exact SimOutcome.noConfusion hst

theorem seedFlights_chargers (cfg : Config) :
    ∀ n, (seedFlights cfg n).activeChargers
          = List.replicate cfg.numChargers none
        ∧ (seedFlights cfg n).chargingQueue = []
  | 0 => ⟨rfl, rfl⟩
  | n + 1 => by
    have ih := seedFlights_chargers cfg n
    rw [seedFlights, scheduleFlight]
    split
    · exact ih
    · exact ih

theorem seedFlights_flightOnly (cfg : Config) :
    ∀ n, ∀ e ∈ (seedFlights cfg n).eventQueue, ∀ w i,
      e.action ≠ .chargeEnd w i
  | 0 => fun e he => absurd he (List.not_mem_nil e)
  | n + 1 => by
    intro e
    rw [seedFlights, scheduleFlight]
    split
    · exact fun he => seedFlights_flightOnly cfg n e he
    · intro he w i
      rcases List.mem_append.1 he with h1 | h1
      · exact seedFlights_flightOnly cfg n e h1 w i
      · rcases List.mem_singleton.1 h1 with rfl
        intro hact
        cases hact

theorem seedFlights_mention (cfg : Config) :
    ∀ n (v : ℕ),
      (seedFlights cfg n).eventQueue.countP (fun e => mentionsVehicle v e) ≤ 1
      ∧ (n ≤ v →
          (seedFlights cfg n).eventQueue.countP (fun e => mentionsVehicle v e) = 0)
  | 0, v => ⟨by simp [seedFlights], fun _ => by simp [seedFlights]⟩
  | n + 1, v => by
    obtain ⟨hb, hz⟩ := seedFlights_mention cfg n v
    rw [seedFlights, scheduleFlight]
    split
    · exact ⟨hb, fun hv => hz (by omega)⟩
    · constructor
      · simp only [pushEvent, List.countP_append]
        by_cases hv : n = v
        · subst hv
          rw [hz (Nat.le_refl n)]
          simp [List.countP_cons, mentionsVehicle]
        · have hbv : (n == v) = false := beq_eq_false_iff_ne.2 hv
          simp only [List.countP_cons, List.countP_nil, mentionsVehicle, hbv]
          simpa using hb
      · intro hv
        have hvn : (n == v) = false := beq_eq_false_iff_ne.2 (by omega)
        simp only [pushEvent, List.countP_append]
        rw [hz (by omega)]
        simp [List.countP_cons, mentionsVehicle, hvn]

theorem inv_initState (cfg : Config) : Inv cfg (initState cfg) := by
  refine ⟨?_, ?_, ?_, ?_⟩
  · show (seedFlights cfg _).activeChargers.length = cfg.numChargers
    rw [(seedFlights_chargers cfg _).1, List.length_replicate]
  · intro e he w i hact
    exact absurd hact (seedFlights_flightOnly cfg _ e he w i)
  · intro i w hslot
    rw [show (initState cfg).activeChargers
        = List.replicate cfg.numChargers none from (seedFlights_chargers cfg _).1,
      getD_replicate_none] at hslot
    cases hslot
  · intro v
    rw [mentionCount,
      show (initState cfg).chargingQueue = [] from (seedFlights_chargers cfg _).2]
    simpa using (seedFlights_mention cfg _ v).1

theorem inv_reachable (cfg : Config) :
    ∀ n, (∀ s, simSteps cfg n = .running s → Inv cfg s)
      ∧ Excl cfg (stateAfter cfg n)
  | 0 => by
    constructor
    · intro s hst
      injection hst with h'
      subst h'
      exact inv_initState cfg
    · exact excl_of_inv (inv_initState cfg)
  | n + 1 => by
    obtain ⟨ihrun, ihexcl⟩ := inv_reachable cfg n
    match houtcome : simSteps cfg n with
    | .running s =>
      have hinv := ihrun s houtcome
      obtain ⟨hr, hf, hc⟩ := inv_simStep hinv
      constructor
      · intro s' hst
        rw [simSteps, houtcome] at hst
        exact hr s' hst
      · rw [stateAfter, simSteps, houtcome]
        dsimp only
        match hstep : simStep cfg s with
        | .running s' => exact excl_of_inv (hr s' hstep)
        | .finished sf => exact excl_of_inv (hf sf hstep)
        | .crashed s0 => exact hc s0 hstep
    | .finished s =>
      constructor
      · intro s' hst
        rw [simSteps, houtcome] at hst
        exact SimOutcome.noConfusion hst
      · rw [stateAfter, simSteps, houtcome]
        rw [stateAfter, houtcome] at ihexcl
        exact ihexcl
    | .crashed s =>
      constructor
      · intro s' hst
        rw [simSteps, houtcome] at hst
        exact SimOutcome.noConfusion hst
      · rw [stateAfter, simSteps, houtcome]
        rw [stateAfter, houtcome] at ihexcl
        exact ihexcl

/-- Claim C6: charger exclusivity.  In every reachable state of every run:
the slot array has exactly the configured pool size (each slot holding at
most one vehicle by construction — `Option` of a vehicle index, as in the
source's `vector<shared_ptr<Vehicle>>`), so the number of vehicles
simultaneously charging, `countOccupied`, never exceeds the pool size;
and no vehicle is simultaneously in the waiting line and in a charger
slot. -/
theorem claim_C6_charger_exclusivity (cfg : Config) (n : ℕ) :
    (stateAfter cfg n).activeChargers.length = cfg.numChargers
    ∧ countOccupied (stateAfter cfg n).activeChargers ≤ cfg.numChargers
    ∧ ∀ v ∈ (stateAfter cfg n).chargingQueue, ∀ i,
        (stateAfter cfg n).activeChargers.getD i none ≠ some v := by
  obtain ⟨hlen, hexcl⟩ := (inv_reachable cfg n).2
  refine ⟨hlen, ?_, hexcl⟩
  rw [countOccupied, ← hlen]
  exact List.length_filter_le _ _

/-- Witness for C6: in the run of `cfgB` after 3 steps, vehicle 1 waits in
the line while vehicle 0 charges, and the pool bound holds. -/
theorem claim_C6_witness :
    countOccupied (stateAfter cfgB 3).activeChargers ≤ cfgB.numChargers
    ∧ (stateAfter cfgB 3).activeChargers.getD 0 none ≠ some 1 := by
  constructor
  · exact (claim_C6_charger_exclusivity cfgB 3).2.1
  · exact (claim_C6_charger_exclusivity cfgB 3).2.2 1 (by decide) 0

end EVTOL
